import Mathlib

/-!
Verification of the Jellyfin-Image-Normalizer core against its
natural-language specification.  The Python sources under
src/jfin_core are shallowly embedded below: pure helpers become Lean
functions, the stateful pipeline code becomes trace-producing functions
over explicit oracle environments, and fallible code returns Option.
Strings are modelled as Lean String or List Char, machine floats of the
scale computation as exact rationals, and Python round as its
round-half-to-even rule.
-/

/-! ## Decimal digit machinery shared by backup.py filename handling -/

/-- Value of an ASCII digit character, as computed by Python int parsing. -/
def digitVal (c : Char) : Nat := c.toNat - 48

/-- Big-endian decimal parse, the semantics of Python int() on a digit string. -/
def digitsToNat (s : List Char) : Nat :=
  s.foldl (fun a c => 10 * a + digitVal c) 0

/-- Little-endian list of decimal digit characters of a natural number. -/
def natDigitsRev : Nat → List Char
  | 0 => []
  | n + 1 => Nat.digitChar ((n + 1) % 10) :: natDigitsRev ((n + 1) / 10)
decreasing_by exact Nat.div_lt_self (Nat.succ_pos n) (by decide)

/-- Decimal rendering of a natural number, the semantics of Python str(n). -/
def pyStr (n : Nat) : List Char :=
  if n = 0 then ['0'] else (natDigitsRev n).reverse

/-- Little-endian digit value, helper for the round-trip proof. -/
def valRev : List Char → Nat
  | [] => 0
  | c :: cs => digitVal c + 10 * valRev cs

theorem digitVal_digitChar : ∀ m < 10, digitVal (Nat.digitChar m) = m := by decide

theorem isDigit_digitChar : ∀ m < 10, (Nat.digitChar m).isDigit = true := by decide

theorem digitsToNat_reverse (l : List Char) : digitsToNat l.reverse = valRev l := by
  induction l with
  | nil => rfl
  | cons c cs ih =>
      simp only [List.reverse_cons, digitsToNat, List.foldl_append, List.foldl_cons,
        List.foldl_nil]
      simp only [digitsToNat] at ih
      rw [ih]
      simp [valRev]
      ring

theorem valRev_natDigitsRev : ∀ n, valRev (natDigitsRev n) = n := by
  intro n
  induction n using Nat.strong_induction_on with
  | _ n ih =>
    match n with
    | 0 => simp [natDigitsRev, valRev]
    | m + 1 =>
      rw [natDigitsRev]
      simp only [valRev]
      rw [ih ((m + 1) / 10) (Nat.div_lt_self (Nat.succ_pos m) (by decide))]
      rw [digitVal_digitChar _ (Nat.mod_lt _ (by decide))]
      omega

theorem natDigitsRev_all_digit : ∀ n, ∀ c ∈ natDigitsRev n, c.isDigit = true := by
  intro n
  induction n using Nat.strong_induction_on with
  | _ n ih =>
    match n with
    | 0 => simp [natDigitsRev]
    | m + 1 =>
      rw [natDigitsRev]
      intro c hc
      rcases List.mem_cons.mp hc with h | h
      · rw [h]; exact isDigit_digitChar _ (Nat.mod_lt _ (by decide))
      · exact ih ((m + 1) / 10) (Nat.div_lt_self (Nat.succ_pos m) (by decide)) c h

theorem natDigitsRev_ne_nil (m : Nat) : natDigitsRev (m + 1) ≠ [] := by
  rw [natDigitsRev]; simp

theorem digitsToNat_pyStr (n : Nat) : digitsToNat (pyStr n) = n := by
  match n with
  | 0 => rfl
  | m + 1 =>
    rw [pyStr]
    simp only [Nat.succ_ne_zero, if_false]
    rw [digitsToNat_reverse, valRev_natDigitsRev]

theorem pyStr_all_digit (n : Nat) : ∀ c ∈ pyStr n, c.isDigit = true := by
  match n with
  | 0 => intro c hc; simp [pyStr] at hc; rw [hc]; rfl
  | m + 1 =>
    intro c hc
    rw [pyStr] at hc
    simp only [Nat.succ_ne_zero, if_false, List.mem_reverse] at hc
    exact natDigitsRev_all_digit (m + 1) c hc

theorem pyStr_ne_nil (n : Nat) : pyStr n ≠ [] := by
  match n with
  | 0 => simp [pyStr]
  | m + 1 =>
    rw [pyStr]
    simp only [Nat.succ_ne_zero, if_false]
    simp [natDigitsRev_ne_nil m]

/-! ## Boolean list prefix test, the semantics of Python str.startswith -/

/-- Boolean test that the first list starts the second one. -/
def listStartsWith : List Char → List Char → Bool
  | [], _ => true
  | _ :: _, [] => false
  | a :: as, b :: bs => a == b && listStartsWith as bs

theorem listStartsWith_append (p t : List Char) : listStartsWith p (p ++ t) = true := by
  induction p with
  | nil => rfl
  | cons a as ih => simp [listStartsWith, ih]

/-! ## backup.py: FILENAME_CONFIG, backup_path_for_image, _extract_backdrop_index -/

/-- Transcription of FILENAME_CONFIG from src/jfin_core/constants.py.
There is no Backdrop entry in the source dictionary. -/
def FILENAME_CONFIG : List (String × String) :=
  [(("Logo"), ("logo")), (("Thumb"), ("landscape")), (("Primary"), ("profile"))]

/-- Lowercasing of a string at character level, Python str.lower for ASCII. -/
def pyLower (s : List Char) : List Char := s.map Char.toLower

/-- Filename stem chosen by backup_path_for_image in src/jfin_core/backup.py:
the FILENAME_CONFIG entry for the image type, defaulting to the lowercased
type name, with the backdrop index appended when it is present and positive. -/
def backupStem (image_type : String) (backdrop_index : Option Nat) : List Char :=
  let stem := ((FILENAME_CONFIG.lookup image_type).getD
    (String.mk (pyLower image_type.data))).data
  match backdrop_index with
  | some n => if n > 0 then stem ++ pyStr n else stem
  | none => stem

/-- Transcription of _extract_backdrop_index from src/jfin_core/backup.py,
operating on the filename stem (Python Path(filename).stem). -/
def extractBackdropIndex (stem : List Char) : Option Nat :=
  let bstem := ((FILENAME_CONFIG.lookup ("Backdrop")).getD ("backdrop")).data
  if listStartsWith bstem stem then
    let suffix := stem.drop bstem.length
    if suffix = [] then some 0
    else if suffix.all Char.isDigit then some (digitsToNat suffix)
    else none
  else none

theorem backdrop_default_stem :
    ((FILENAME_CONFIG.lookup ("Backdrop")).getD ("backdrop")).data =
      ['b', 'a', 'c', 'k', 'd', 'r', 'o', 'p'] := by decide

theorem backupStem_backdrop (n : Nat) :
    backupStem ("Backdrop") (some n) =
      if n > 0 then ['b', 'a', 'c', 'k', 'd', 'r', 'o', 'p'] ++ pyStr n
      else ['b', 'a', 'c', 'k', 'd', 'r', 'o', 'p'] := by
  match n with
  | 0 => decide
  | m + 1 =>
    show (if m + 1 > 0 then _ ++ pyStr (m + 1) else _) = _
    simp only [Nat.succ_pos, if_true]
    congr 1

/-- Claim C10: round trip of the backdrop index encoding.  For every index
the stem written by backup_path_for_image for image type Backdrop is decoded
back to exactly that index by _extract_backdrop_index. -/
theorem backdrop_stem_roundtrip (n : Nat) :
    extractBackdropIndex (backupStem ("Backdrop") (some n)) = some n := by
  match n with
  | 0 => decide
  | m + 1 =>
    rw [backupStem_backdrop]
    simp only [Nat.succ_pos, if_true]
    rw [extractBackdropIndex]
    simp only [backdrop_default_stem]
    rw [listStartsWith_append]
    simp only [if_true]
    have hdrop : (['b', 'a', 'c', 'k', 'd', 'r', 'o', 'p'] ++ pyStr (m + 1)).drop
        (['b', 'a', 'c', 'k', 'd', 'r', 'o', 'p'] : List Char).length = pyStr (m + 1) := by
      exact List.drop_left _ _
    rw [hdrop]
    have hne : pyStr (m + 1) ≠ [] := pyStr_ne_nil (m + 1)
    have hall : (pyStr (m + 1)).all Char.isDigit = true := by
      rw [List.all_eq_true]
      intro c hc
      exact pyStr_all_digit (m + 1) c hc
    rw [if_neg hne, if_pos hall, digitsToNat_pyStr]

/-! ## imaging.py: compute_scaled_size and make_scale_plan

Python floats are embedded as exact rationals; Python round (banker
rounding, half to even) is transcribed explicitly. -/

/-- Semantics of the Python builtin round on a rational: round half to even. -/
def pyRound (q : ℚ) : ℤ :=
  let n := ⌊q⌋
  let r := q - n
  if r < 1/2 then n
  else if 1/2 < r then n + 1
  else if n % 2 = 0 then n else n + 1

/-- Sequential clamping from compute_scaled_size in src/jfin_core/imaging.py:
first the upscale ban is applied, then the downscale ban. -/
def clampSeq (s : ℚ) (allow_upscale allow_downscale : Bool) : ℚ :=
  let s1 := if allow_upscale = false ∧ 1 < s then 1 else s
  if allow_downscale = false ∧ s1 < 1 then 1 else s1

/-- Transcription of compute_scaled_size from src/jfin_core/imaging.py.
Original sizes are the Pillow image size; an invalid fit mode raises,
modelled as none. -/
def computeScaledSize (orig_w orig_h target_w target_h : ℕ) (fit_mode : String)
    (allow_upscale allow_downscale : Bool) : Option (ℚ × ℤ × ℤ) :=
  let scale_w : ℚ := (target_w : ℚ) / (orig_w : ℚ)
  let scale_h : ℚ := (target_h : ℚ) / (orig_h : ℚ)
  if fit_mode = ("fit") then
    let s2 := clampSeq (min scale_w scale_h) allow_upscale allow_downscale
    some (s2, pyRound ((orig_w : ℚ) * s2), pyRound ((orig_h : ℚ) * s2))
  else if fit_mode = ("cover") then
    let s2 := clampSeq (max scale_w scale_h) allow_upscale allow_downscale
    some (s2, pyRound ((orig_w : ℚ) * s2), pyRound ((orig_h : ℚ) * s2))
  else none

/-- Decision artifact of make_scale_plan in src/jfin_core/imaging.py. -/
structure ScalePlan where
  decision : String
  scale : ℚ
  new_width : ℤ
  new_height : ℤ
  orig_width : ℕ
  orig_height : ℕ
deriving DecidableEq

/-- Transcription of make_scale_plan from src/jfin_core/imaging.py. -/
def makeScalePlan (orig_w orig_h target_w target_h : ℕ) (fit_mode : String)
    (allow_upscale allow_downscale : Bool) : Option ScalePlan :=
  match computeScaledSize orig_w orig_h target_w target_h fit_mode
      allow_upscale allow_downscale with
  | none => none
  | some (s, nw, nh) =>
      some { decision :=
               if 1 < s then ("SCALE_UP")
               else if s < 1 then ("SCALE_DOWN")
               else ("NO_SCALE"),
             scale := s, new_width := nw, new_height := nh,
             orig_width := orig_w, orig_height := orig_h }

/-- Clamp written the way the specification states it: the scale is replaced
by 1 when it exceeds 1 with upscaling banned, or is below 1 with downscaling
banned. -/
def clampSpec (s : ℚ) (allow_upscale allow_downscale : Bool) : ℚ :=
  if (1 < s ∧ allow_upscale = false) ∨ (s < 1 ∧ allow_downscale = false) then 1 else s

theorem clampSeq_eq_clampSpec (s : ℚ) (up down : Bool) :
    clampSeq s up down = clampSpec s up down := by
  unfold clampSeq clampSpec
  by_cases h1 : up = false ∧ 1 < s
  · rw [if_pos h1]
    have : ¬ (down = false ∧ (1 : ℚ) < 1) := by simp
    rw [if_neg this, if_pos (Or.inl ⟨h1.2, h1.1⟩)]
  · rw [if_neg h1]
    by_cases h2 : down = false ∧ s < 1
    · rw [if_pos h2, if_pos (Or.inr ⟨h2.2, h2.1⟩)]
    · rw [if_neg h2, if_neg]
      intro hor
      rcases hor with ⟨ha, hb⟩ | ⟨ha, hb⟩
      · exact h1 ⟨hb, ha⟩
      · exact h2 ⟨hb, ha⟩

theorem clampSeq_le_one (s : ℚ) (down : Bool) : clampSeq s false down ≤ 1 := by
  rw [clampSeq_eq_clampSpec]
  unfold clampSpec
  by_cases h : (1 < s ∧ (false : Bool) = false) ∨ (s < 1 ∧ down = false)
  · rw [if_pos h]
  · rw [if_neg h]
    have : ¬ (1 : ℚ) < s := fun hlt => h (Or.inl ⟨hlt, rfl⟩)
    exact not_lt.mp this

theorem one_le_clampSeq (s : ℚ) (up : Bool) : 1 ≤ clampSeq s up false := by
  rw [clampSeq_eq_clampSpec]
  unfold clampSpec
  by_cases h : (1 < s ∧ up = false) ∨ (s < 1 ∧ (false : Bool) = false)
  · rw [if_pos h]
  · rw [if_neg h]
    have : ¬ s < 1 := fun hlt => h (Or.inr ⟨hlt, rfl⟩)
    exact not_lt.mp this

/-- Claim C5: for positive sizes compute_scaled_size returns the minimum
ratio in fit mode and the maximum ratio in cover mode, clamped to 1 exactly
when the scale exceeds 1 with upscaling banned or is below 1 with
downscaling banned. -/
theorem compute_scaled_size_spec (ow oh tw th : ℕ) (up down : Bool)
    (how : 0 < ow) (hoh : 0 < oh) (htw : 0 < tw) (hth : 0 < th) :
    (∃ w h, computeScaledSize ow oh tw th ("fit") up down =
      some (clampSpec (min ((tw : ℚ) / (ow : ℚ)) ((th : ℚ) / (oh : ℚ))) up down, w, h)) ∧
    (∃ w h, computeScaledSize ow oh tw th ("cover") up down =
      some (clampSpec (max ((tw : ℚ) / (ow : ℚ)) ((th : ℚ) / (oh : ℚ))) up down, w, h)) := by
  constructor
  · have h : computeScaledSize ow oh tw th ("fit") up down =
        some (clampSeq (min ((tw : ℚ) / (ow : ℚ)) ((th : ℚ) / (oh : ℚ))) up down,
          pyRound ((ow : ℚ) * clampSeq (min ((tw : ℚ) / (ow : ℚ)) ((th : ℚ) / (oh : ℚ))) up down),
          pyRound ((oh : ℚ) * clampSeq (min ((tw : ℚ) / (ow : ℚ)) ((th : ℚ) / (oh : ℚ))) up down)) := rfl
    rw [clampSeq_eq_clampSpec] at h
    exact ⟨_, _, h⟩
  · have h : computeScaledSize ow oh tw th ("cover") up down =
        some (clampSeq (max ((tw : ℚ) / (ow : ℚ)) ((th : ℚ) / (oh : ℚ))) up down,
          pyRound ((ow : ℚ) * clampSeq (max ((tw : ℚ) / (ow : ℚ)) ((th : ℚ) / (oh : ℚ))) up down),
          pyRound ((oh : ℚ) * clampSeq (max ((tw : ℚ) / (ow : ℚ)) ((th : ℚ) / (oh : ℚ))) up down)) := rfl
    rw [clampSeq_eq_clampSpec] at h
    exact ⟨_, _, h⟩

/-- Witness for claim C5 at the concrete sizes 2x2 into 2x2. -/
theorem compute_scaled_size_spec_witness :
    (0 < 2 ∧ 0 < 2 ∧ 0 < 2 ∧ 0 < 2) ∧
    ((∃ w h, computeScaledSize 2 2 2 2 ("fit") true true =
      some (clampSpec (min ((2 : ℚ) / (2 : ℚ)) ((2 : ℚ) / (2 : ℚ))) true true, w, h)) ∧
    (∃ w h, computeScaledSize 2 2 2 2 ("cover") true true =
      some (clampSpec (max ((2 : ℚ) / (2 : ℚ)) ((2 : ℚ) / (2 : ℚ))) true true, w, h))) :=
  ⟨⟨by decide, by decide, by decide, by decide⟩,
    compute_scaled_size_spec 2 2 2 2 true true (by decide) (by decide) (by decide) (by decide)⟩

theorem computeScaledSize_some (ow oh tw th : ℕ) (fm : String) (up down : Bool)
    (s : ℚ) (w h : ℤ)
    (heq : computeScaledSize ow oh tw th fm up down = some (s, w, h)) :
    (∃ base, s = clampSeq base up down) ∧
      w = pyRound ((ow : ℚ) * s) ∧ h = pyRound ((oh : ℚ) * s) := by
  simp only [computeScaledSize] at heq
  split at heq
  · simp only [Option.some.injEq, Prod.mk.injEq] at heq
    obtain ⟨hs, hw, hh⟩ := heq
    exact ⟨⟨_, hs.symm⟩, by rw [← hs, ← hw], by rw [← hs, ← hh]⟩
  · split at heq
    · simp only [Option.some.injEq, Prod.mk.injEq] at heq
      obtain ⟨hs, hw, hh⟩ := heq
      exact ⟨⟨_, hs.symm⟩, by rw [← hs, ← hw], by rw [← hs, ← hh]⟩
    · exact absurd heq (by simp)

/-- Claim C6: every plan produced by make_scale_plan has decision NO_SCALE
exactly when its scale is 1, has new sizes equal to the rounded scaled
original sizes, and respects the upscale and downscale policy bounds. -/
theorem make_scale_plan_invariants (ow oh tw th : ℕ) (fm : String) (up down : Bool)
    (p : ScalePlan) (heq : makeScalePlan ow oh tw th fm up down = some p) :
    (p.decision = ("NO_SCALE") ↔ p.scale = 1) ∧
    p.new_width = pyRound ((p.orig_width : ℚ) * p.scale) ∧
    p.new_height = pyRound ((p.orig_height : ℚ) * p.scale) ∧
    (up = false → p.scale ≤ 1) ∧
    (down = false → 1 ≤ p.scale) := by
  unfold makeScalePlan at heq
  cases hcs : computeScaledSize ow oh tw th fm up down with
  | none => rw [hcs] at heq; exact absurd heq (by simp)
  | some triple =>
      obtain ⟨s, nw, nh⟩ := triple
      rw [hcs] at heq
      simp only [Option.some.injEq] at heq
      obtain ⟨⟨base, hbase⟩, hw, hh⟩ :=
        computeScaledSize_some ow oh tw th fm up down s nw nh hcs
      subst heq
      refine ⟨?_, ?_, ?_, ?_, ?_⟩
      · show (if 1 < s then ("SCALE_UP")
              else if s < 1 then ("SCALE_DOWN")
              else ("NO_SCALE")) = ("NO_SCALE") ↔ s = 1
        constructor
        · intro hdec
          by_cases h1 : 1 < s
          · rw [if_pos h1] at hdec; exact absurd hdec (by decide)
          · rw [if_neg h1] at hdec
            by_cases h2 : s < 1
            · rw [if_pos h2] at hdec; exact absurd hdec (by decide)
            · exact le_antisymm (not_lt.mp h1) (not_lt.mp h2)
        · intro hs1
          rw [hs1, if_neg (lt_irrefl (1 : ℚ)), if_neg (lt_irrefl (1 : ℚ))]
      · exact hw
      · exact hh
      · intro hup
        subst hup
        show s ≤ 1
        rw [hbase]
        exact clampSeq_le_one base down
      · intro hdown
        subst hdown
        show (1 : ℚ) ≤ s
        rw [hbase]
        exact one_le_clampSeq base up

/-- Witness for claim C6 at the concrete sizes 2x2 into 2x2 in fit mode. -/
theorem make_scale_plan_invariants_witness :
    ∃ p, makeScalePlan 2 2 2 2 ("fit") true true = some p ∧
      ((p.decision = ("NO_SCALE") ↔ p.scale = 1) ∧
       p.new_width = pyRound ((p.orig_width : ℚ) * p.scale) ∧
       p.new_height = pyRound ((p.orig_height : ℚ) * p.scale) ∧
       (true = false → p.scale ≤ 1) ∧
       (true = false → 1 ≤ p.scale)) := by
  have heq : makeScalePlan 2 2 2 2 ("fit") true true =
      some { decision := ("NO_SCALE"), scale := 1, new_width := 2, new_height := 2,
             orig_width := 2, orig_height := 2 } := by
    unfold makeScalePlan computeScaledSize clampSeq pyRound
    norm_num
  exact ⟨_, heq, make_scale_plan_invariants 2 2 2 2 ("fit") true true _ heq⟩

/-! ## imaging.py: cover_and_crop_image

Pillow images are embedded by their size and mode; resize produces the
requested size, crop produces the box size (Pillow pads when the box
extends past the image), convert keeps the size. -/

/-- Pillow image embedded as size plus mode string. -/
structure PILImg where
  width : ℕ
  height : ℕ
  mode : String
deriving DecidableEq

/-- Pillow Image.resize: the result has exactly the requested size. -/
def pilResize (img : PILImg) (w h : ℕ) : PILImg :=
  { width := w, height := h, mode := img.mode }

/-- Pillow Image.convert: mode changes, size is preserved. -/
def pilConvert (img : PILImg) (m : String) : PILImg :=
  { width := img.width, height := img.height, mode := m }

/-- Pillow Image.crop on box (l, t, r, b): the result size is the box size,
with padding when the box leaves the image. -/
def pilCrop (img : PILImg) (l t r b : ℤ) : PILImg :=
  { width := (r - l).toNat, height := (b - t).toNat, mode := img.mode }

/-- Left edge of the center crop box in cover_and_crop_image:
Python max(0, (new_width - target_width) // 2) with floor division. -/
def cropLeft (new_width target_width : ℕ) : ℤ :=
  max 0 (Int.fdiv ((new_width : ℤ) - (target_width : ℤ)) 2)

/-- Top edge of the center crop box in cover_and_crop_image. -/
def cropTop (new_height target_height : ℕ) : ℤ :=
  max 0 (Int.fdiv ((new_height : ℤ) - (target_height : ℤ)) 2)

/-- Transcription of cover_and_crop_image from src/jfin_core/imaging.py. -/
def coverAndCropImage (img : PILImg) (target_width target_height new_width new_height : ℕ)
    (mode : Option String) : PILImg :=
  let mode_upper := mode.map (fun s => String.mk (s.data.map Char.toUpper))
  let img1 :=
    if mode_upper = some ("RGB") then
      if img.mode = ("L") then img
      else if img.mode ≠ ("RGB") then pilConvert img ("RGB") else img
    else if mode_upper = some ("RGBA") ∧ img.mode ≠ ("RGBA") then pilConvert img ("RGBA")
    else img
  let resized := pilResize img1 new_width new_height
  let left := cropLeft new_width target_width
  let top := cropTop new_height target_height
  let right := left + (target_width : ℤ)
  let bottom := top + (target_height : ℤ)
  let cropped := pilCrop resized left top right bottom
  if mode_upper = some ("RGB") ∧ cropped.mode ≠ ("RGB") then pilConvert cropped ("RGB")
  else cropped

theorem width_convert_if (c : Prop) [Decidable c] (i : PILImg) (m : String) :
    (if c then pilConvert i m else i).width = i.width := by
  split <;> rfl

theorem height_convert_if (c : Prop) [Decidable c] (i : PILImg) (m : String) :
    (if c then pilConvert i m else i).height = i.height := by
  split <;> rfl

/-- Claim C7: for positive target and resized sizes, cover_and_crop_image
returns an image of exactly the target size, using the center crop box
whose left and top edges are the halved size differences floored at zero,
for every input image and requested mode. -/
theorem cover_and_crop_exact_size (img : PILImg) (tw th nw nh : ℕ) (mode : Option String)
    (htw : 0 < tw) (hth : 0 < th) (hnw : 0 < nw) (hnh : 0 < nh) :
    (coverAndCropImage img tw th nw nh mode).width = tw ∧
    (coverAndCropImage img tw th nw nh mode).height = th ∧
    cropLeft nw tw = max 0 (Int.fdiv ((nw : ℤ) - (tw : ℤ)) 2) ∧
    cropTop nh th = max 0 (Int.fdiv ((nh : ℤ) - (th : ℤ)) 2) := by
  refine ⟨?_, ?_, rfl, rfl⟩
  · simp only [coverAndCropImage, width_convert_if, pilCrop, add_sub_cancel_left,
      Int.toNat_natCast]
  · simp only [coverAndCropImage, height_convert_if, pilCrop, add_sub_cancel_left,
      Int.toNat_natCast]

/-- Witness for claim C7: a 10x10 RGB image covered and cropped into 4x3
after a resize to 8x5. -/
theorem cover_and_crop_exact_size_witness :
    (0 < 4 ∧ 0 < 3 ∧ 0 < 8 ∧ 0 < 5) ∧
    ((coverAndCropImage ⟨10, 10, ("RGB")⟩ 4 3 8 5 (some ("RGB"))).width = 4 ∧
     (coverAndCropImage ⟨10, 10, ("RGB")⟩ 4 3 8 5 (some ("RGB"))).height = 3 ∧
     cropLeft 8 4 = max 0 (Int.fdiv ((8 : ℤ) - (4 : ℤ)) 2) ∧
     cropTop 5 3 = max 0 (Int.fdiv ((5 : ℤ) - (3 : ℤ)) 2)) :=
  ⟨⟨by decide, by decide, by decide, by decide⟩,
    cover_and_crop_exact_size ⟨10, 10, ("RGB")⟩ 4 3 8 5 (some ("RGB"))
      (by decide) (by decide) (by decide) (by decide)⟩

/-! ## backup.py: normalize_backup_mode and should_backup_for_plan

The constant VALID_BACKUP_MODES is imported by src/jfin_core/backup.py from
the constants module but is absent from the sources available here, so it
is modelled from the spec. -/

/-- Character level strip of surrounding whitespace, Python str.strip. -/
def pyStrip (s : List Char) : List Char :=
  ((s.dropWhile Char.isWhitespace).reverse.dropWhile Char.isWhitespace).reverse

/-- Modelled from the spec: VALID_BACKUP_MODES, the set of recognized backup
modes, absent from the sources; per the spec the modes are partial (default,
back up only scaled images) and full (always back up). -/
def VALID_BACKUP_MODES : List (List Char) := [("partial").data, ("full").data]

/-- Transcription of normalize_backup_mode from src/jfin_core/backup.py:
a missing mode defaults to partial, anything not recognized after
stripping and lowercasing warns and defaults to partial. -/
def normalizeBackupMode (raw_mode : Option String) : List Char :=
  match raw_mode with
  | none => ("partial").data
  | some m =>
      let mode := pyStrip (pyLower m.data)
      if VALID_BACKUP_MODES.contains mode then mode else ("partial").data

/-- Transcription of should_backup_for_plan from src/jfin_core/backup.py. -/
def shouldBackupForPlan (decision : String) (backup_mode : String) : Bool :=
  let normalized_mode := normalizeBackupMode (some backup_mode)
  if normalized_mode = ("full").data then true
  else decision != ("NO_SCALE")

theorem normalizeBackupMode_cases (m : String) :
    normalizeBackupMode (some m) = ("partial").data ∨
    normalizeBackupMode (some m) = ("full").data := by
  simp only [normalizeBackupMode]
  by_cases h : VALID_BACKUP_MODES.contains (pyStrip (pyLower m.data)) = true
  · rw [if_pos h]
    unfold VALID_BACKUP_MODES at h
    simp only [List.contains_cons, List.contains_nil, Bool.or_false] at h
    rcases Bool.or_eq_true_iff.mp h with h1 | h1
    · left; exact (beq_iff_eq.mp h1)
    · right; exact (beq_iff_eq.mp h1)
  · rw [if_neg h]
    left; rfl

/-- Claim C8: backup mode full always backs up; mode partial backs up
exactly the plans whose decision is not NO_SCALE; and a SCALE_UP plan is
backed up under every mode string, unrecognized ones included. -/
theorem should_backup_for_plan_spec (decision m : String) :
    shouldBackupForPlan decision ("full") = true ∧
    (shouldBackupForPlan decision ("partial") = true ↔ decision ≠ ("NO_SCALE")) ∧
    shouldBackupForPlan ("SCALE_UP") m = true := by
  refine ⟨?_, ?_, ?_⟩
  · simp only [shouldBackupForPlan]
    have h : normalizeBackupMode (some ("full")) = ("full").data := by decide
    rw [h, if_pos rfl]
  · simp only [shouldBackupForPlan]
    have h : normalizeBackupMode (some ("partial")) = ("partial").data := by decide
    rw [h, if_neg (by decide)]
    simp [bne_iff_ne]
  · simp only [shouldBackupForPlan]
    rcases normalizeBackupMode_cases m with h | h
    · rw [h, if_neg (by decide)]
      decide
    · rw [h, if_pos rfl]

/-! ## imaging.py: apply_exif_orientation -/

/-- Image with its optional EXIF orientation tag value (tag 274), for
apply_exif_orientation.  A missing or empty EXIF block is orientation none. -/
structure ExifImage where
  width : ℕ
  height : ℕ
  orientation : Option ℕ
deriving DecidableEq

/-- Transcription of apply_exif_orientation from src/jfin_core/imaging.py,
parametric in the Pillow ImageOps.exif_transpose operation. -/
def applyExifOrientation (transpose : ExifImage → ExifImage) (img : ExifImage) : ExifImage :=
  if (img.orientation = some 5 ∨ img.orientation = some 6 ∨
      img.orientation = some 7 ∨ img.orientation = some 8) ∧
      img.width ≤ img.height then img
  else transpose img

/-- Transpose operation separating the two branches of the counterexample:
it changes every image. -/
def exTranspose : ExifImage → ExifImage :=
  fun i => { width := i.width, height := i.height + 1, orientation := i.orientation }

/-- Counterexample to claim C9 as stated: a square 4x4 image with
orientation tag 6 is not taller than wide, yet the code skips the
transpose (the source condition is height greater than or equal to width),
so the result is not the transposed image. -/
theorem apply_exif_orientation_square_counterexample :
    applyExifOrientation exTranspose ⟨4, 4, some 6⟩ = ⟨4, 4, some 6⟩ ∧
    exTranspose ⟨4, 4, some 6⟩ ≠ ⟨4, 4, some 6⟩ ∧
    ¬ (4 : ℕ) < 4 := by decide

/-- Claim C9 as amended: apply_exif_orientation applies the transpose to
every image, except that for orientation tags 5, 6, 7 and 8 it returns the
image unchanged when the image is at least as tall as it is wide. -/
theorem apply_exif_orientation_spec (transpose : ExifImage → ExifImage) (img : ExifImage) :
    applyExifOrientation transpose img =
      if (img.orientation = some 5 ∨ img.orientation = some 6 ∨
          img.orientation = some 7 ∨ img.orientation = some 8) ∧
          img.width ≤ img.height then img
      else transpose img := rfl

/-! ## backup.py: image_type_from_filename -/

/-- Loop body of image_type_from_filename from src/jfin_core/backup.py:
walk the FILENAME_CONFIG entries; return the type on an exact stem match,
or on the type Backdrop when the stem is the configured stem followed by
digits; raise (none) when no entry matches. -/
def imageTypeFind (stem : List Char) : List (String × String) → Option String
  | [] => none
  | (img_type, configured_stem) :: rest =>
      let c := pyLower configured_stem.data
      if stem = c then some img_type
      else if img_type = ("Backdrop") ∧
          (listStartsWith c stem ∧ (stem.drop c.length).all Char.isDigit) then
        some img_type
      else imageTypeFind stem rest

/-- Transcription of image_type_from_filename from src/jfin_core/backup.py,
taking the lowercased filename stem; none models the ValueError raise. -/
def imageTypeFromStem (stem : List Char) : Option String :=
  imageTypeFind stem FILENAME_CONFIG

/-- Claim C4 evaluation: because FILENAME_CONFIG has no Backdrop entry, the
stems that backup_path_for_image writes for backdrops are not recognized and
raise, while the other three stems map as documented; this contradicts the
claim and the repository test which expect stems backdrop and backdrop1 to
map to Backdrop. -/
theorem image_type_from_filename_backdrop_bug :
    imageTypeFromStem ("backdrop").data = none ∧
    imageTypeFromStem ("backdrop1").data = none ∧
    imageTypeFromStem (backupStem ("Backdrop") (some 0)) = none ∧
    imageTypeFromStem ("logo").data = some ("Logo") ∧
    imageTypeFromStem ("landscape").data = some ("Thumb") ∧
    imageTypeFromStem ("profile").data = some ("Primary") := by decide

/-! ## pipeline.py: normalize_item_backdrops_api

The five phase backdrop protocol is embedded as a trace producing function
over an oracle environment supplying the outcomes of the Jellyfin client
calls, the staging filesystem writes and reads, and the per backdrop
normalization helper.  Image bytes and content types are abstracted as
natural number identifiers. -/

/-- Observable events of one run of normalize_item_backdrops_api. -/
inductive PipelineEv where
  | fetchCall (index : ℕ)
  | deleteCall (index : ℕ)
  | headCall (index : ℕ)
  | uploadCall (index : ℕ) (payload : ℕ)
  | cleanupStaging
  | errorRec
  | successRec
  | warnRec
  | skipRec
deriving DecidableEq

/-- Oracle environment for one run of normalize_item_backdrops_api. -/
structure BackdropEnv where
  hasModeMapping : Bool
  hasSettings : Bool
  fetch : ℕ → Option (ℕ × ℕ)
  extOf : ℕ → Option ℕ
  writeOk : ℕ → Bool
  readOk : ℕ → Bool
  norm : ℕ → ℕ → Option (ℕ × ℕ)
  deleteOk : ℕ → Bool
  headGone : Bool
  uploadOk : ℕ → Bool

/-- Transcription of cleanup_staging_on_failure from
normalize_item_backdrops_api: nothing is removed in dry run mode or once
deletions started. -/
def cleanupOnFailure (dry deletions_started : Bool) : List PipelineEv :=
  if dry || deletions_started then [] else [PipelineEv.cleanupStaging]

/-- Phase 1 of normalize_item_backdrops_api: fetch and stage the backdrops
at source indices i, i+1, ... while remaining is positive.  A fetch
failure, a content type without a known extension, or a failing staging
write records one error, cleans staging and aborts. -/
def fetchPhase (env : BackdropEnv) (dry : Bool) :
    ℕ → ℕ → List PipelineEv × Option (List (ℕ × Option ℕ × ℕ))
  | _, 0 => ([], some [])
  | i, remaining + 1 =>
    match env.fetch i with
    | none =>
        ([PipelineEv.fetchCall i, PipelineEv.errorRec] ++ cleanupOnFailure dry false, none)
    | some (d, ct) =>
        if dry then
          let r := fetchPhase env dry (i + 1) remaining
          (PipelineEv.fetchCall i :: r.1, r.2.map (fun l => (i, none, ct) :: l))
        else
          match env.extOf ct with
          | none =>
              ([PipelineEv.fetchCall i, PipelineEv.errorRec] ++ cleanupOnFailure dry false,
                none)
          | some _ =>
              if env.writeOk i then
                let r := fetchPhase env dry (i + 1) remaining
                (PipelineEv.fetchCall i :: r.1, r.2.map (fun l => (i, some d, ct) :: l))
              else
                ([PipelineEv.fetchCall i, PipelineEv.errorRec] ++ cleanupOnFailure dry false,
                  none)

/-- Phase 2 of normalize_item_backdrops_api: normalize each staged backdrop
in staging order.  Dry run records one success per backdrop and yields an
empty placeholder payload; a missing staged file, a failing read, or an
exception from the normalization helper records one error, cleans staging
and aborts. -/
def normalizePhase (env : BackdropEnv) (dry : Bool) :
    List (ℕ × Option ℕ × ℕ) → List PipelineEv × Option (List (ℕ × ℕ × ℕ))
  | [] => ([], some [])
  | (i, staged, ct) :: rest =>
    if dry then
      let r := normalizePhase env dry rest
      (PipelineEv.successRec :: r.1, r.2.map (fun l => (i, 0, ct) :: l))
    else
      match staged with
      | none => (PipelineEv.errorRec :: cleanupOnFailure dry false, none)
      | some d =>
          if env.readOk i then
            match env.norm i d with
            | none => (PipelineEv.errorRec :: cleanupOnFailure dry false, none)
            | some (payload, nct) =>
                let r := normalizePhase env dry rest
                (r.1, r.2.map (fun l => (i, payload, nct) :: l))
          else (PipelineEv.errorRec :: cleanupOnFailure dry false, none)

/-- Phase 3 of normalize_item_backdrops_api: delete the original backdrops,
always at index 0, aborting on the first failed delete with one error. -/
def deletePhase (env : BackdropEnv) : ℕ → ℕ → List PipelineEv × Bool
  | _, 0 => ([], true)
  | k, remaining + 1 =>
    if env.deleteOk k then
      let r := deletePhase env (k + 1) remaining
      (PipelineEv.deleteCall 0 :: r.1, r.2)
    else ([PipelineEv.deleteCall 0, PipelineEv.errorRec], false)

/-- Phase 4 of normalize_item_backdrops_api: upload the normalized payloads
to upload indices 0, 1, ... in staging order; a failed upload records an
error but does not stop the remaining uploads. -/
def uploadPhase (env : BackdropEnv) : ℕ → List (ℕ × ℕ × ℕ) → List PipelineEv × Bool
  | _, [] => ([], false)
  | upload_index, (_, payload, _) :: rest =>
    if env.uploadOk upload_index then
      let r := uploadPhase env (upload_index + 1) rest
      (PipelineEv.uploadCall upload_index payload :: PipelineEv.successRec :: r.1, r.2)
    else
      let r := uploadPhase env (upload_index + 1) rest
      (PipelineEv.uploadCall upload_index payload :: PipelineEv.errorRec :: r.1, true)

/-- Transcription of normalize_item_backdrops_api from
src/jfin_core/pipeline.py, returning the Python boolean result and the
ordered trace of observable events. -/
def normalizeItemBackdropsApi (env : BackdropEnv) (dry : Bool) (total : ℕ) :
    Bool × List PipelineEv :=
  if env.hasModeMapping = false then (false, [PipelineEv.warnRec])
  else if env.hasSettings = false then (false, [PipelineEv.warnRec])
  else if total = 0 then (false, [PipelineEv.skipRec])
  else
    match fetchPhase env dry 0 total with
    | (evs1, none) => (false, evs1)
    | (evs1, some staged) =>
      if staged.length ≠ total then
        (false, evs1 ++ [PipelineEv.errorRec] ++ cleanupOnFailure dry false)
      else
        match normalizePhase env dry staged with
        | (evs2, none) => (false, evs1 ++ evs2)
        | (evs2, some payloads) =>
          if payloads.length ≠ total then
            (false, evs1 ++ evs2 ++ [PipelineEv.errorRec] ++ cleanupOnFailure dry false)
          else if dry then (true, evs1 ++ evs2)
          else
            match deletePhase env 0 total with
            | (evs3, false) => (false, evs1 ++ evs2 ++ evs3)
            | (evs3, true) =>
              if env.headGone = false then
                (false,
                  evs1 ++ evs2 ++ (evs3 ++ [PipelineEv.headCall 0]) ++ [PipelineEv.errorRec])
              else
                match uploadPhase env 0 payloads with
                | (evs4, true) =>
                    (false, evs1 ++ evs2 ++ (evs3 ++ [PipelineEv.headCall 0]) ++ evs4)
                | (evs4, false) =>
                    (true, evs1 ++ evs2 ++ (evs3 ++ [PipelineEv.headCall 0]) ++ evs4 ++
                      [PipelineEv.cleanupStaging])

/-- Indices of the delete calls of a trace, in order. -/
def deleteCalls : List PipelineEv → List ℕ
  | [] => []
  | PipelineEv.deleteCall i :: t => i :: deleteCalls t
  | _ :: t => deleteCalls t

/-- Upload calls of a trace as pairs of upload index and payload, in order. -/
def uploadCalls : List PipelineEv → List (ℕ × ℕ)
  | [] => []
  | PipelineEv.uploadCall i p :: t => (i, p) :: uploadCalls t
  | _ :: t => uploadCalls t

/-- Number of recorded errors in a trace. -/
def errorCount : List PipelineEv → ℕ
  | [] => 0
  | PipelineEv.errorRec :: t => errorCount t + 1
  | _ :: t => errorCount t

theorem deleteCalls_append (a b : List PipelineEv) :
    deleteCalls (a ++ b) = deleteCalls a ++ deleteCalls b := by
  induction a with
  | nil => rfl
  | cons e t ih => cases e <;> simp [deleteCalls, ih]

theorem uploadCalls_append (a b : List PipelineEv) :
    uploadCalls (a ++ b) = uploadCalls a ++ uploadCalls b := by
  induction a with
  | nil => rfl
  | cons e t ih => cases e <;> simp [uploadCalls, ih]

theorem errorCount_append (a b : List PipelineEv) :
    errorCount (a ++ b) = errorCount a + errorCount b := by
  induction a with
  | nil => simp [errorCount]
  | cons e t ih => cases e <;> simp [errorCount, ih] <;> omega

theorem cleanupOnFailure_projections (dry ds : Bool) :
    deleteCalls (cleanupOnFailure dry ds) = [] ∧
    uploadCalls (cleanupOnFailure dry ds) = [] ∧
    errorCount (cleanupOnFailure dry ds) = 0 := by
  unfold cleanupOnFailure
  split <;> simp [deleteCalls, uploadCalls, errorCount]

theorem fetchPhase_abort (env : BackdropEnv) (dry : Bool) :
    ∀ rem st, (fetchPhase env dry st rem).2 = none →
      errorCount (fetchPhase env dry st rem).1 = 1 ∧
      deleteCalls (fetchPhase env dry st rem).1 = [] ∧
      uploadCalls (fetchPhase env dry st rem).1 = [] ∧
      (dry = false → PipelineEv.cleanupStaging ∈ (fetchPhase env dry st rem).1) := by
  intro rem
  induction rem with
  | zero => intro st h; exact absurd h (by simp [fetchPhase])
  | succ k ih =>
      intro st h
      cases hf : env.fetch st with
      | none =>
          simp only [fetchPhase, hf] at h ⊢
          obtain ⟨hd, hu, he⟩ := cleanupOnFailure_projections dry false
          refine ⟨?_, ?_, ?_, ?_⟩
          · simp [errorCount_append, errorCount, he]
          · simp [deleteCalls_append, deleteCalls, hd]
          · simp [uploadCalls_append, uploadCalls, hu]
          · intro hdry
            subst hdry
            simp [cleanupOnFailure]
      | some pair =>
          obtain ⟨d, ct⟩ := pair
          simp only [fetchPhase, hf] at h ⊢
          by_cases hdry : dry = true
          · rw [if_pos hdry] at h ⊢
            have hrec : (fetchPhase env dry (st + 1) k).2 = none := by
              cases hr2 : (fetchPhase env dry (st + 1) k).2 with
              | none => rfl
              | some l => rw [hr2] at h; exact absurd h (by simp)
            obtain ⟨h1, h2, h3, _⟩ := ih (st + 1) hrec
            refine ⟨?_, ?_, ?_, ?_⟩
            · simp [errorCount, h1]
            · simp [deleteCalls, h2]
            · simp [uploadCalls, h3]
            · intro hc; rw [hc] at hdry; exact absurd hdry (by decide)
          · rw [if_neg hdry] at h ⊢
            cases hext : env.extOf ct with
            | none =>
                simp only [hext] at h ⊢
                obtain ⟨hd, hu, he⟩ := cleanupOnFailure_projections dry false
                refine ⟨?_, ?_, ?_, ?_⟩
                · simp [errorCount_append, errorCount, he]
                · simp [deleteCalls_append, deleteCalls, hd]
                · simp [uploadCalls_append, uploadCalls, hu]
                · intro hdryf
                  subst hdryf
                  simp [cleanupOnFailure]
            | some e =>
                simp only [hext] at h ⊢
                by_cases hw : env.writeOk st = true
                · rw [if_pos hw] at h ⊢
                  have hrec : (fetchPhase env dry (st + 1) k).2 = none := by
                    cases hr2 : (fetchPhase env dry (st + 1) k).2 with
                    | none => rfl
                    | some l => rw [hr2] at h; exact absurd h (by simp)
                  obtain ⟨h1, h2, h3, hcl⟩ := ih (st + 1) hrec
                  refine ⟨?_, ?_, ?_, ?_⟩
                  · simp [errorCount, h1]
                  · simp [deleteCalls, h2]
                  · simp [uploadCalls, h3]
                  · intro hdryf
                    simp [hcl hdryf]
                · rw [if_neg hw] at h ⊢
                  obtain ⟨hd, hu, he⟩ := cleanupOnFailure_projections dry false
                  refine ⟨?_, ?_, ?_, ?_⟩
                  · simp [errorCount_append, errorCount, he]
                  · simp [deleteCalls_append, deleteCalls, hd]
                  · simp [uploadCalls_append, uploadCalls, hu]
                  · intro hdryf
                    subst hdryf
                    simp [cleanupOnFailure]

theorem fetchPhase_fetch_some (env : BackdropEnv) (dry : Bool) :
    ∀ rem st staged, (fetchPhase env dry st rem).2 = some staged →
      ∀ j, st ≤ j → j < st + rem → (env.fetch j).isSome := by
  intro rem
  induction rem with
  | zero => intro st staged _ j hj1 hj2; omega
  | succ k ih =>
      intro st staged h j hj1 hj2
      cases hf : env.fetch st with
      | none =>
          simp only [fetchPhase, hf] at h
          exact Option.noConfusion h
      | some pair =>
          obtain ⟨d, ct⟩ := pair
          simp only [fetchPhase, hf] at h
          by_cases hjst : j = st
          · subst hjst; rw [hf]; rfl
          · have hj1s : st + 1 ≤ j := by omega
            have hj2s : j < st + 1 + k := by omega
            by_cases hdry : dry = true
            · rw [if_pos hdry] at h
              cases hrec : (fetchPhase env dry (st + 1) k).2 with
              | none => rw [hrec] at h; exact absurd h (by simp)
              | some l => exact ih (st + 1) l hrec j hj1s hj2s
            · rw [if_neg hdry] at h
              cases hext : env.extOf ct with
              | none => simp only [hext] at h; exact absurd h (by simp)
              | some e =>
                  simp only [hext] at h
                  by_cases hw : env.writeOk st = true
                  · rw [if_pos hw] at h
                    cases hrec : (fetchPhase env dry (st + 1) k).2 with
                    | none => rw [hrec] at h; exact absurd h (by simp)
                    | some l => exact ih (st + 1) l hrec j hj1s hj2s
                  · rw [if_neg hw] at h; exact absurd h (by simp)

/-- Claim C2: when the backdrop mode mapping and settings are present, the
item has at least one backdrop, and the client fails to return the backdrop
at some source index, normalize_item_backdrops_api returns False with
exactly one recorded error, zero delete calls and zero upload calls, and in
a non dry run the staging directory of the item is cleaned up. -/
theorem backdrop_fetch_failure_aborts (env : BackdropEnv) (dry : Bool) (total : ℕ)
    (hm : env.hasModeMapping = true) (hs : env.hasSettings = true)
    (hpos : 1 ≤ total) (i : ℕ) (hi : i < total) (hf : env.fetch i = none) :
    (normalizeItemBackdropsApi env dry total).1 = false ∧
    errorCount (normalizeItemBackdropsApi env dry total).2 = 1 ∧
    deleteCalls (normalizeItemBackdropsApi env dry total).2 = [] ∧
    uploadCalls (normalizeItemBackdropsApi env dry total).2 = [] ∧
    (dry = false → PipelineEv.cleanupStaging ∈ (normalizeItemBackdropsApi env dry total).2) := by
  have habort : (fetchPhase env dry 0 total).2 = none := by
    cases hfp : (fetchPhase env dry 0 total).2 with
    | none => rfl
    | some staged =>
        have := fetchPhase_fetch_some env dry total 0 staged hfp i (Nat.zero_le i)
          (by omega)
        rw [hf] at this
        exact absurd this (by simp)
  obtain ⟨h1, h2, h3, h4⟩ := fetchPhase_abort env dry total 0 habort
  have hrun : normalizeItemBackdropsApi env dry total =
      (false, (fetchPhase env dry 0 total).1) := by
    cases hp : fetchPhase env dry 0 total with
    | mk evs res =>
        rw [hp] at habort
        have hres : res = none := habort
        subst hres
        unfold normalizeItemBackdropsApi
        rw [hm, hs, if_neg (by decide), if_neg (by decide), if_neg (by omega), hp]
  rw [hrun]
  exact ⟨rfl, h1, h2, h3, h4⟩

/-- Environment for the witness of claim C2: a single backdrop whose fetch
fails. -/
def envFetchFail : BackdropEnv :=
  { hasModeMapping := true, hasSettings := true,
    fetch := fun _ => none, extOf := fun _ => some 0,
    writeOk := fun _ => true, readOk := fun _ => true,
    norm := fun _ d => some (d, 0), deleteOk := fun _ => true,
    headGone := true, uploadOk := fun _ => true }

/-- Witness for claim C2 on a concrete one backdrop item. -/
theorem backdrop_fetch_failure_aborts_witness :
    (envFetchFail.hasModeMapping = true ∧ envFetchFail.hasSettings = true ∧
     1 ≤ 1 ∧ 0 < 1 ∧ envFetchFail.fetch 0 = none) ∧
    ((normalizeItemBackdropsApi envFetchFail false 1).1 = false ∧
     errorCount (normalizeItemBackdropsApi envFetchFail false 1).2 = 1 ∧
     deleteCalls (normalizeItemBackdropsApi envFetchFail false 1).2 = [] ∧
     uploadCalls (normalizeItemBackdropsApi envFetchFail false 1).2 = [] ∧
     (false = false →
       PipelineEv.cleanupStaging ∈ (normalizeItemBackdropsApi envFetchFail false 1).2)) :=
  ⟨⟨rfl, rfl, by decide, by decide, rfl⟩,
    backdrop_fetch_failure_aborts envFetchFail false 1 rfl rfl (by decide) 0 (by decide) rfl⟩

/-! ## Happy path characterization of the five phases, for claim C1 -/

/-- Bytes returned by the client for the backdrop at a source index. -/
def envFetchData (env : BackdropEnv) (i : ℕ) : ℕ := ((env.fetch i).getD (0, 0)).1

/-- Content type returned by the client for the backdrop at a source index. -/
def envFetchCt (env : BackdropEnv) (i : ℕ) : ℕ := ((env.fetch i).getD (0, 0)).2

/-- Normalized payload derived from the backdrop fetched at a source index. -/
def envPayload (env : BackdropEnv) (i : ℕ) : ℕ :=
  ((env.norm i (envFetchData env i)).getD (0, 0)).1

/-- Content type of the normalized payload at a source index. -/
def envPayloadCt (env : BackdropEnv) (i : ℕ) : ℕ :=
  ((env.norm i (envFetchData env i)).getD (0, 0)).2

theorem fetchPhase_success (env : BackdropEnv) :
    ∀ rem st,
      (∀ j, st ≤ j → j < st + rem → (env.fetch j).isSome ∧
        (env.extOf (envFetchCt env j)).isSome ∧ env.writeOk j = true) →
      fetchPhase env false st rem =
        ((List.range' st rem).map PipelineEv.fetchCall,
         some ((List.range' st rem).map
           (fun j => (j, some (envFetchData env j), envFetchCt env j)))) := by
  intro rem
  induction rem with
  | zero => intro st _; rfl
  | succ k ih =>
      intro st hok
      obtain ⟨hfs, hes, hws⟩ := hok st (le_refl st) (by omega)
      obtain ⟨pair, hf⟩ := Option.isSome_iff_exists.mp hfs
      obtain ⟨d, ct⟩ := pair
      have hdata : envFetchData env st = d := by simp [envFetchData, hf]
      have hct : envFetchCt env st = ct := by simp [envFetchCt, hf]
      rw [hct] at hes
      obtain ⟨e, he⟩ := Option.isSome_iff_exists.mp hes
      have hrec := ih (st + 1) (fun j hj1 hj2 => hok j (by omega) (by omega))
      rw [fetchPhase, hf]
      simp only [Bool.false_eq_true, if_false, he, hws, if_pos rfl, hrec]
      rw [List.range'_succ]
      simp [hdata, hct]

theorem normalizePhase_success (env : BackdropEnv) :
    ∀ rem st,
      (∀ j, st ≤ j → j < st + rem → env.readOk j = true ∧
        (env.norm j (envFetchData env j)).isSome) →
      normalizePhase env false
        ((List.range' st rem).map
          (fun j => (j, some (envFetchData env j), envFetchCt env j))) =
        ([], some ((List.range' st rem).map
          (fun j => (j, envPayload env j, envPayloadCt env j)))) := by
  intro rem
  induction rem with
  | zero => intro st _; rfl
  | succ k ih =>
      intro st hok
      obtain ⟨hrs, hns⟩ := hok st (le_refl st) (by omega)
      obtain ⟨pair, hn⟩ := Option.isSome_iff_exists.mp hns
      obtain ⟨payload, nct⟩ := pair
      have hp : envPayload env st = payload := by simp [envPayload, hn]
      have hpct : envPayloadCt env st = nct := by simp [envPayloadCt, hn]
      have hrec := ih (st + 1) (fun j hj1 hj2 => hok j (by omega) (by omega))
      rw [List.range'_succ]
      simp only [List.map_cons, normalizePhase, Bool.false_eq_true, if_false, hrs,
        if_pos rfl, hn, hrec]
      simp [hp, hpct, List.range'_succ]

theorem deletePhase_success (env : BackdropEnv) :
    ∀ rem st, (∀ j, st ≤ j → j < st + rem → env.deleteOk j = true) →
      deletePhase env st rem = (List.replicate rem (PipelineEv.deleteCall 0), true) := by
  intro rem
  induction rem with
  | zero => intro st _; rfl
  | succ k ih =>
      intro st hok
      have hd := hok st (le_refl st) (by omega)
      have hrec := ih (st + 1) (fun j hj1 hj2 => hok j (by omega) (by omega))
      rw [deletePhase, if_pos hd, hrec]
      rfl

theorem deletePhase_failure (env : BackdropEnv) :
    ∀ rem st, (∃ j, st ≤ j ∧ j < st + rem ∧ env.deleteOk j = false) →
      ∃ m, m < rem ∧ deletePhase env st rem =
        (List.replicate m (PipelineEv.deleteCall 0) ++
          [PipelineEv.deleteCall 0, PipelineEv.errorRec], false) := by
  intro rem
  induction rem with
  | zero => intro st h; obtain ⟨j, h1, h2, _⟩ := h; omega
  | succ k ih =>
      intro st h
      by_cases hdel : env.deleteOk st = true
      · obtain ⟨j, hj1, hj2, hj3⟩ := h
        have hjne : j ≠ st := by
          intro heq; rw [heq, hdel] at hj3; exact absurd hj3 (by decide)
        obtain ⟨m, hm1, hm2⟩ := ih (st + 1) ⟨j, by omega, by omega, hj3⟩
        refine ⟨m + 1, by omega, ?_⟩
        rw [deletePhase, if_pos hdel, hm2]
        simp [List.replicate_succ]
      · refine ⟨0, by omega, ?_⟩
        rw [deletePhase, if_neg hdel]
        simp

theorem uploadPhase_trace (env : BackdropEnv) :
    ∀ rem st,
      uploadCalls (uploadPhase env st ((List.range' st rem).map
        (fun j => (j, envPayload env j, envPayloadCt env j)))).1 =
        (List.range' st rem).map (fun j => (j, envPayload env j)) ∧
      deleteCalls (uploadPhase env st ((List.range' st rem).map
        (fun j => (j, envPayload env j, envPayloadCt env j)))).1 = [] := by
  intro rem
  induction rem with
  | zero => intro st; exact ⟨rfl, rfl⟩
  | succ k ih =>
      intro st
      obtain ⟨ih1, ih2⟩ := ih (st + 1)
      rw [List.range'_succ]
      simp only [List.map_cons, uploadPhase]
      by_cases hu : env.uploadOk st = true
      · rw [if_pos hu]
        simp [uploadCalls, deleteCalls, ih1, ih2, List.range'_succ]
      · rw [if_neg hu]
        simp [uploadCalls, deleteCalls, ih1, ih2, List.range'_succ]

theorem deleteCalls_map_fetch (l : List ℕ) :
    deleteCalls (l.map PipelineEv.fetchCall) = [] := by
  induction l with
  | nil => rfl
  | cons a t ih => simp [deleteCalls, ih]

theorem uploadCalls_map_fetch (l : List ℕ) :
    uploadCalls (l.map PipelineEv.fetchCall) = [] := by
  induction l with
  | nil => rfl
  | cons a t ih => simp [uploadCalls, ih]

theorem deleteCalls_replicate (m : ℕ) :
    deleteCalls (List.replicate m (PipelineEv.deleteCall 0)) = List.replicate m 0 := by
  induction m with
  | zero => rfl
  | succ k ih => simp [List.replicate_succ, deleteCalls, ih]

theorem uploadCalls_replicate (m : ℕ) :
    uploadCalls (List.replicate m (PipelineEv.deleteCall 0)) = [] := by
  induction m with
  | zero => rfl
  | succ k ih => simp [List.replicate_succ, uploadCalls, ih]

/-- Staged file list of the happy fetch phase. -/
def stagedOf (env : BackdropEnv) (total : ℕ) : List (ℕ × Option ℕ × ℕ) :=
  (List.range' 0 total).map (fun j => (j, some (envFetchData env j), envFetchCt env j))

/-- Normalized payload list of the happy normalize phase. -/
def payloadsOf (env : BackdropEnv) (total : ℕ) : List (ℕ × ℕ × ℕ) :=
  (List.range' 0 total).map (fun j => (j, envPayload env j, envPayloadCt env j))

theorem backdrop_run_characterization (env : BackdropEnv) (total : ℕ)
    (hm : env.hasModeMapping = true) (hs : env.hasSettings = true)
    (hpos : 1 ≤ total)
    (hfetch : ∀ j, j < total → (env.fetch j).isSome = true)
    (hext : ∀ j, j < total → (env.extOf (envFetchCt env j)).isSome = true)
    (hwrite : ∀ j, j < total → env.writeOk j = true)
    (hread : ∀ j, j < total → env.readOk j = true)
    (hnorm : ∀ j, j < total → (env.norm j (envFetchData env j)).isSome = true) :
    normalizeItemBackdropsApi env false total =
      (match deletePhase env 0 total with
       | (evs3, false) =>
           (false, (List.range' 0 total).map PipelineEv.fetchCall ++ [] ++ evs3)
       | (evs3, true) =>
           if env.headGone = false then
             (false, (List.range' 0 total).map PipelineEv.fetchCall ++ [] ++
               (evs3 ++ [PipelineEv.headCall 0]) ++ [PipelineEv.errorRec])
           else
             match uploadPhase env 0 (payloadsOf env total) with
             | (evs4, true) =>
                 (false, (List.range' 0 total).map PipelineEv.fetchCall ++ [] ++
                   (evs3 ++ [PipelineEv.headCall 0]) ++ evs4)
             | (evs4, false) =>
                 (true, (List.range' 0 total).map PipelineEv.fetchCall ++ [] ++
                   (evs3 ++ [PipelineEv.headCall 0]) ++ evs4 ++
                   [PipelineEv.cleanupStaging])) := by
  have hF : fetchPhase env false 0 total =
      ((List.range' 0 total).map PipelineEv.fetchCall, some (stagedOf env total)) :=
    fetchPhase_success env total 0
      (fun j hj1 hj2 => ⟨hfetch j (by omega), hext j (by omega), hwrite j (by omega)⟩)
  have hN : normalizePhase env false (stagedOf env total) =
      ([], some (payloadsOf env total)) :=
    normalizePhase_success env total 0
      (fun j hj1 hj2 => ⟨hread j (by omega), hnorm j (by omega)⟩)
  have hlen1 : (stagedOf env total).length = total := by
    simp [stagedOf]
  have hlen2 : (payloadsOf env total).length = total := by
    simp [payloadsOf]
  unfold normalizeItemBackdropsApi
  rw [hm, hs, if_neg (by decide), if_neg (by decide), if_neg (by omega), hF]
  simp only [hN, hlen1, hlen2, ne_eq, not_true_eq_false, Bool.false_eq_true, if_false]

/-- Claim C1 as amended: in a non dry run with the backdrop mode configured,
at least one backdrop, and fetch and normalize phases succeeding, every
delete call uses index 0 and every delete call precedes every upload call;
when every delete succeeds there are exactly total delete calls; when some
delete fails the function returns False after at most total delete calls
(at least one) and issues zero uploads; when every delete succeeds and the
verification probe confirms deletion, the normalized payloads are uploaded
to indices 0 to total-1 in source order; when the probe still finds an
image, zero uploads are issued and the function returns False. -/
theorem backdrop_protocol_spec (env : BackdropEnv) (total : ℕ)
    (hm : env.hasModeMapping = true) (hs : env.hasSettings = true)
    (hpos : 1 ≤ total)
    (hfetch : ∀ j, j < total → (env.fetch j).isSome = true)
    (hext : ∀ j, j < total → (env.extOf (envFetchCt env j)).isSome = true)
    (hwrite : ∀ j, j < total → env.writeOk j = true)
    (hread : ∀ j, j < total → env.readOk j = true)
    (hnorm : ∀ j, j < total → (env.norm j (envFetchData env j)).isSome = true) :
    (∀ i ∈ deleteCalls (normalizeItemBackdropsApi env false total).2, i = 0) ∧
    (∃ A B, (normalizeItemBackdropsApi env false total).2 = A ++ B ∧
      uploadCalls A = [] ∧ deleteCalls B = []) ∧
    ((∀ k, k < total → env.deleteOk k = true) →
      (deleteCalls (normalizeItemBackdropsApi env false total).2).length = total) ∧
    ((∃ k, k < total ∧ env.deleteOk k = false) →
      (normalizeItemBackdropsApi env false total).1 = false ∧
      uploadCalls (normalizeItemBackdropsApi env false total).2 = [] ∧
      1 ≤ (deleteCalls (normalizeItemBackdropsApi env false total).2).length ∧
      (deleteCalls (normalizeItemBackdropsApi env false total).2).length ≤ total) ∧
    ((∀ k, k < total → env.deleteOk k = true) → env.headGone = true →
      uploadCalls (normalizeItemBackdropsApi env false total).2 =
        (List.range total).map (fun i => (i, envPayload env i))) ∧
    ((∀ k, k < total → env.deleteOk k = true) → env.headGone = false →
      (normalizeItemBackdropsApi env false total).1 = false ∧
      uploadCalls (normalizeItemBackdropsApi env false total).2 = []) := by
  have hchar := backdrop_run_characterization env total hm hs hpos hfetch hext hwrite
    hread hnorm
  by_cases hdel : ∀ k, k < total → env.deleteOk k = true
  · have hD : deletePhase env 0 total =
        (List.replicate total (PipelineEv.deleteCall 0), true) :=
      deletePhase_success env total 0 (fun j _ hj2 => hdel j (by omega))
    by_cases hhg : env.headGone = false
    · -- verification still finds an image: abort without uploads
      have hrun : normalizeItemBackdropsApi env false total =
          (false, (List.range' 0 total).map PipelineEv.fetchCall ++ [] ++
            (List.replicate total (PipelineEv.deleteCall 0) ++ [PipelineEv.headCall 0]) ++
            [PipelineEv.errorRec]) := by
        rw [hchar, hD]
        simp only [hhg, eq_self_iff_true, if_true]
      rw [hrun]
      have hdc : deleteCalls ((List.range' 0 total).map PipelineEv.fetchCall ++ [] ++
          (List.replicate total (PipelineEv.deleteCall 0) ++ [PipelineEv.headCall 0]) ++
          [PipelineEv.errorRec]) = List.replicate total 0 := by
        simp [deleteCalls_append, deleteCalls_map_fetch, deleteCalls_replicate, deleteCalls]
      have hup : uploadCalls ((List.range' 0 total).map PipelineEv.fetchCall ++ [] ++
          (List.replicate total (PipelineEv.deleteCall 0) ++ [PipelineEv.headCall 0]) ++
          [PipelineEv.errorRec]) = [] := by
        simp [uploadCalls_append, uploadCalls_map_fetch, uploadCalls_replicate, uploadCalls]
      refine ⟨?_, ?_, ?_, ?_, ?_, ?_⟩
      · intro i hi
        rw [hdc] at hi
        exact List.eq_of_mem_replicate hi
      · exact ⟨_, [], (List.append_nil _).symm, hup, rfl⟩
      · intro _
        rw [hdc, List.length_replicate]
      · intro hex
        obtain ⟨k, hk, hkf⟩ := hex
        rw [hdel k hk] at hkf
        exact absurd hkf (by decide)
      · intro _ hhgt
        rw [hhgt] at hhg
        exact absurd hhg (by decide)
      · intro _ _
        exact ⟨rfl, hup⟩
    · -- verification confirms deletion: all uploads are issued
      have hhgt : env.headGone = true := by
        cases h : env.headGone with
        | false => exact absurd h hhg
        | true => rfl
      obtain ⟨hupU, hdcU⟩ := uploadPhase_trace env total 0
      cases hu : uploadPhase env 0 (payloadsOf env total) with
      | mk U b =>
          have hupU2 : uploadCalls U =
              (List.range' 0 total).map (fun j => (j, envPayload env j)) := by
            have := hupU
            rw [show uploadPhase env 0 ((List.range' 0 total).map
                (fun j => (j, envPayload env j, envPayloadCt env j))) =
              uploadPhase env 0 (payloadsOf env total) from rfl, hu] at this
            exact this
          have hdcU2 : deleteCalls U = [] := by
            have := hdcU
            rw [show uploadPhase env 0 ((List.range' 0 total).map
                (fun j => (j, envPayload env j, envPayloadCt env j))) =
              uploadPhase env 0 (payloadsOf env total) from rfl, hu] at this
            exact this
          cases b with
          | true =>
              have hrun : normalizeItemBackdropsApi env false total =
                  (false, (List.range' 0 total).map PipelineEv.fetchCall ++ [] ++
                    (List.replicate total (PipelineEv.deleteCall 0) ++
                      [PipelineEv.headCall 0]) ++ U) := by
                rw [hchar, hD]
                simp only [hhgt, Bool.true_eq_false, if_false, hu]
              rw [hrun]
              have hdc : deleteCalls ((List.range' 0 total).map PipelineEv.fetchCall ++ [] ++
                  (List.replicate total (PipelineEv.deleteCall 0) ++
                    [PipelineEv.headCall 0]) ++ U) = List.replicate total 0 := by
                simp [deleteCalls_append, deleteCalls_map_fetch, deleteCalls_replicate,
                  deleteCalls, hdcU2]
              have hup : uploadCalls ((List.range' 0 total).map PipelineEv.fetchCall ++ [] ++
                  (List.replicate total (PipelineEv.deleteCall 0) ++
                    [PipelineEv.headCall 0]) ++ U) =
                  (List.range' 0 total).map (fun j => (j, envPayload env j)) := by
                simp [uploadCalls_append, uploadCalls_map_fetch, uploadCalls_replicate,
                  uploadCalls, hupU2]
              refine ⟨?_, ?_, ?_, ?_, ?_, ?_⟩
              · intro i hi
                rw [hdc] at hi
                exact List.eq_of_mem_replicate hi
              · refine ⟨(List.range' 0 total).map PipelineEv.fetchCall ++ [] ++
                  (List.replicate total (PipelineEv.deleteCall 0) ++
                    [PipelineEv.headCall 0]), U, rfl, ?_, hdcU2⟩
                simp [uploadCalls_append, uploadCalls_map_fetch, uploadCalls_replicate,
                  uploadCalls]
              · intro _
                rw [hdc, List.length_replicate]
              · intro hex
                obtain ⟨k, hk, hkf⟩ := hex
                rw [hdel k hk] at hkf
                exact absurd hkf (by decide)
              · intro _ _
                rw [hup, List.range_eq_range']
              · intro _ hhgf
                rw [hhgf] at hhgt
                exact absurd hhgt (by decide)
          | false =>
              have hrun : normalizeItemBackdropsApi env false total =
                  (true, (List.range' 0 total).map PipelineEv.fetchCall ++ [] ++
                    (List.replicate total (PipelineEv.deleteCall 0) ++
                      [PipelineEv.headCall 0]) ++ U ++ [PipelineEv.cleanupStaging]) := by
                rw [hchar, hD]
                simp only [hhgt, Bool.true_eq_false, if_false, hu]
              rw [hrun]
              have hdc : deleteCalls ((List.range' 0 total).map PipelineEv.fetchCall ++ [] ++
                  (List.replicate total (PipelineEv.deleteCall 0) ++
                    [PipelineEv.headCall 0]) ++ U ++ [PipelineEv.cleanupStaging]) =
                  List.replicate total 0 := by
                simp [deleteCalls_append, deleteCalls_map_fetch, deleteCalls_replicate,
                  deleteCalls, hdcU2]
              have hup : uploadCalls ((List.range' 0 total).map PipelineEv.fetchCall ++ [] ++
                  (List.replicate total (PipelineEv.deleteCall 0) ++
                    [PipelineEv.headCall 0]) ++ U ++ [PipelineEv.cleanupStaging]) =
                  (List.range' 0 total).map (fun j => (j, envPayload env j)) := by
                simp [uploadCalls_append, uploadCalls_map_fetch, uploadCalls_replicate,
                  uploadCalls, hupU2]
              refine ⟨?_, ?_, ?_, ?_, ?_, ?_⟩
              · intro i hi
                rw [hdc] at hi
                exact List.eq_of_mem_replicate hi
              · refine ⟨(List.range' 0 total).map PipelineEv.fetchCall ++ [] ++
                  (List.replicate total (PipelineEv.deleteCall 0) ++
                    [PipelineEv.headCall 0]), U ++ [PipelineEv.cleanupStaging],
                  by rw [List.append_assoc], ?_, ?_⟩
                · simp [uploadCalls_append, uploadCalls_map_fetch, uploadCalls_replicate,
                    uploadCalls]
                · simp [deleteCalls_append, hdcU2, deleteCalls]
              · intro _
                rw [hdc, List.length_replicate]
              · intro hex
                obtain ⟨k, hk, hkf⟩ := hex
                rw [hdel k hk] at hkf
                exact absurd hkf (by decide)
              · intro _ _
                rw [hup, List.range_eq_range']
              · intro _ hhgf
                rw [hhgf] at hhgt
                exact absurd hhgt (by decide)
  · -- some delete fails: abort during the delete phase
    push_neg at hdel
    obtain ⟨k, hk, hkf⟩ := hdel
    have hkf2 : env.deleteOk k = false := by
      cases h : env.deleteOk k with
      | false => rfl
      | true => exact absurd h hkf
    obtain ⟨m, hm1, hm2⟩ := deletePhase_failure env total 0 ⟨k, by omega, by omega, hkf2⟩
    have hrun : normalizeItemBackdropsApi env false total =
        (false, (List.range' 0 total).map PipelineEv.fetchCall ++ [] ++
          (List.replicate m (PipelineEv.deleteCall 0) ++
            [PipelineEv.deleteCall 0, PipelineEv.errorRec])) := by
      rw [hchar, hm2]
    rw [hrun]
    have hdc : deleteCalls ((List.range' 0 total).map PipelineEv.fetchCall ++ [] ++
        (List.replicate m (PipelineEv.deleteCall 0) ++
          [PipelineEv.deleteCall 0, PipelineEv.errorRec])) =
        List.replicate m 0 ++ [0] := by
      simp [deleteCalls_append, deleteCalls_map_fetch, deleteCalls_replicate, deleteCalls]
    have hup : uploadCalls ((List.range' 0 total).map PipelineEv.fetchCall ++ [] ++
        (List.replicate m (PipelineEv.deleteCall 0) ++
          [PipelineEv.deleteCall 0, PipelineEv.errorRec])) = [] := by
      simp [uploadCalls_append, uploadCalls_map_fetch, uploadCalls_replicate, uploadCalls]
    refine ⟨?_, ?_, ?_, ?_, ?_, ?_⟩
    · intro i hi
      rw [hdc] at hi
      rcases List.mem_append.mp hi with h | h
      · exact List.eq_of_mem_replicate h
      · simpa using h
    · exact ⟨_, [], (List.append_nil _).symm, hup, rfl⟩
    · intro hall
      rw [hall k hk] at hkf2
      exact absurd hkf2 (by decide)
    · intro _
      refine ⟨rfl, hup, ?_, ?_⟩
      · rw [hdc]; simp
      · rw [hdc]; simp; omega
    · intro hall
      rw [hall k hk] at hkf2
      exact absurd hkf2 (by decide)
    · intro hall
      rw [hall k hk] at hkf2
      exact absurd hkf2 (by decide)

/-- Environment for the counterexample to claim C1 as stated: two backdrops,
fetch and normalize succeed, and every delete fails. -/
def envDeleteFail : BackdropEnv :=
  { hasModeMapping := true, hasSettings := true,
    fetch := fun i => some (i, 0), extOf := fun _ => some 0,
    writeOk := fun _ => true, readOk := fun _ => true,
    norm := fun _ d => some (d + 100, 0), deleteOk := fun _ => false,
    headGone := true, uploadOk := fun _ => true }

/-- Counterexample to claim C1 as stated: on an item with total = 2
backdrops whose fetch and normalize phases succeed, when the first delete
fails the function aborts after one delete call, so delete_image is not
called exactly total = 2 times. -/
theorem backdrop_protocol_counterexample :
    (envDeleteFail.hasModeMapping = true ∧ envDeleteFail.hasSettings = true ∧
     (∀ j, j < 2 → (envDeleteFail.fetch j).isSome = true) ∧
     (∀ j, j < 2 → (envDeleteFail.extOf (envFetchCt envDeleteFail j)).isSome = true) ∧
     (∀ j, j < 2 → envDeleteFail.writeOk j = true) ∧
     (∀ j, j < 2 → envDeleteFail.readOk j = true) ∧
     (∀ j, j < 2 → (envDeleteFail.norm j (envFetchData envDeleteFail j)).isSome = true)) ∧
    (deleteCalls (normalizeItemBackdropsApi envDeleteFail false 2).2).length = 1 ∧
    ¬ (deleteCalls (normalizeItemBackdropsApi envDeleteFail false 2).2).length = 2 := by
  decide

/-- Environment for the witness of claim C1: two backdrops, everything
succeeds. -/
def envAllOk : BackdropEnv :=
  { hasModeMapping := true, hasSettings := true,
    fetch := fun i => some (i + 10, 3), extOf := fun _ => some 0,
    writeOk := fun _ => true, readOk := fun _ => true,
    norm := fun _ d => some (d + 100, 7), deleteOk := fun _ => true,
    headGone := true, uploadOk := fun _ => true }

/-- Witness for the amended claim C1 on a concrete two backdrop item. -/
theorem backdrop_protocol_spec_witness :
    (envAllOk.hasModeMapping = true ∧ envAllOk.hasSettings = true ∧ 1 ≤ 2 ∧
     (∀ j, j < 2 → (envAllOk.fetch j).isSome = true) ∧
     (∀ j, j < 2 → (envAllOk.extOf (envFetchCt envAllOk j)).isSome = true) ∧
     (∀ j, j < 2 → envAllOk.writeOk j = true) ∧
     (∀ j, j < 2 → envAllOk.readOk j = true) ∧
     (∀ j, j < 2 → (envAllOk.norm j (envFetchData envAllOk j)).isSome = true)) ∧
    ((∀ i ∈ deleteCalls (normalizeItemBackdropsApi envAllOk false 2).2, i = 0) ∧
    (∃ A B, (normalizeItemBackdropsApi envAllOk false 2).2 = A ++ B ∧
      uploadCalls A = [] ∧ deleteCalls B = []) ∧
    ((∀ k, k < 2 → envAllOk.deleteOk k = true) →
      (deleteCalls (normalizeItemBackdropsApi envAllOk false 2).2).length = 2) ∧
    ((∃ k, k < 2 ∧ envAllOk.deleteOk k = false) →
      (normalizeItemBackdropsApi envAllOk false 2).1 = false ∧
      uploadCalls (normalizeItemBackdropsApi envAllOk false 2).2 = [] ∧
      1 ≤ (deleteCalls (normalizeItemBackdropsApi envAllOk false 2).2).length ∧
      (deleteCalls (normalizeItemBackdropsApi envAllOk false 2).2).length ≤ 2) ∧
    ((∀ k, k < 2 → envAllOk.deleteOk k = true) → envAllOk.headGone = true →
      uploadCalls (normalizeItemBackdropsApi envAllOk false 2).2 =
        (List.range 2).map (fun i => (i, envPayload envAllOk i))) ∧
    ((∀ k, k < 2 → envAllOk.deleteOk k = true) → envAllOk.headGone = false →
      (normalizeItemBackdropsApi envAllOk false 2).1 = false ∧
      uploadCalls (normalizeItemBackdropsApi envAllOk false 2).2 = [])) :=
  ⟨⟨rfl, rfl, by decide, by decide, by decide, by decide, by decide, by decide⟩,
    backdrop_protocol_spec envAllOk 2 rfl rfl (by decide) (by decide) (by decide)
      (by decide) (by decide) (by decide)⟩

/-! ## backup.py: _restore_backup_payload and _restore_backdrop_group

Backup files are embedded by their filename stem; the Jellyfin client and
the filesystem are oracles.  The Python dict from backdrop index to path is
an association list in insertion order, and Python sorted is a sort of the
key list. -/

/-- Observable events of a backdrop restore. -/
inductive RestoreEv where
  | upload (index : ℕ) (stem : List Char)
  | error
  | success
deriving DecidableEq

/-- Transcription of _restore_backup_payload from src/jfin_core/backup.py
for the backdrop branch: a failing read records one error; dry run records
one success without uploading; otherwise the payload is uploaded at the
given backdrop index and a success or an error is recorded. -/
def restoreBackupPayload (readOk : List Char → Bool) (uploadOk : ℕ → Bool) (dry : Bool)
    (stem : List Char) (idx : ℕ) : Bool × List RestoreEv :=
  if readOk stem = false then (false, [RestoreEv.error])
  else if dry then (true, [RestoreEv.success])
  else if uploadOk idx then (true, [RestoreEv.upload idx stem, RestoreEv.success])
  else (false, [RestoreEv.upload idx stem, RestoreEv.error])

/-- Index to path dictionary construction loop of _restore_backdrop_group:
an unrecognized filename or a duplicate index aborts with none. -/
def buildIndexMap : List (ℕ × List Char) → List (List Char) → Option (List (ℕ × List Char))
  | acc, [] => some acc
  | acc, s :: rest =>
    match extractBackdropIndex s with
    | none => none
    | some i =>
        if (acc.lookup i).isSome then none
        else buildIndexMap (acc ++ [(i, s)]) rest

/-- Sorted key list of the index dictionary, Python sorted(index_to_path). -/
def orderedKeys (m : List (ℕ × List Char)) : List ℕ :=
  List.insertionSort (· ≤ ·) (m.map Prod.fst)

/-- Upload loop of _restore_backdrop_group over the sorted indices. -/
def restoreLoop (readOk : List Char → Bool) (uploadOk : ℕ → Bool) (dry : Bool)
    (m : List (ℕ × List Char)) : List ℕ → ℕ × List RestoreEv
  | [] => (0, [])
  | i :: rest =>
    let step :=
      match m.lookup i with
      | some s => restoreBackupPayload readOk uploadOk dry s i
      | none => (false, [])
    let r := restoreLoop readOk uploadOk dry m rest
    ((if step.1 then 1 else 0) + r.1, step.2 ++ r.2)

/-- Transcription of _restore_backdrop_group from src/jfin_core/backup.py:
empty input restores nothing; an invalid filename or duplicate index records
one error and restores nothing; indices that do not form a contiguous range
from 0 record one error and restore nothing; otherwise every file is
restored at its encoded index in ascending index order. -/
def restoreBackdropGroup (readOk : List Char → Bool) (uploadOk : ℕ → Bool) (dry : Bool)
    (paths : List (List Char)) : ℕ × List RestoreEv :=
  if paths = [] then (0, [])
  else
    match buildIndexMap [] paths with
    | none => (0, [RestoreEv.error])
    | some m =>
        if orderedKeys m = [] then (0, [RestoreEv.error])
        else if (orderedKeys m).head? ≠ some 0 then (0, [RestoreEv.error])
        else if orderedKeys m ≠ List.range ((orderedKeys m).getLastD 0 + 1) then
          (0, [RestoreEv.error])
        else restoreLoop readOk uploadOk dry m (orderedKeys m)

/-- Upload events of a restore trace, in order. -/
def restoreUploads : List RestoreEv → List (ℕ × List Char)
  | [] => []
  | RestoreEv.upload i s :: t => (i, s) :: restoreUploads t
  | _ :: t => restoreUploads t

/-- Dictionary entry built for a valid backdrop backup filename. -/
def entryOf (s : List Char) : ℕ × List Char := ((extractBackdropIndex s).getD 0, s)

theorem lookup_isSome_iff (a : ℕ) :
    ∀ l : List (ℕ × List Char), (l.lookup a).isSome = true ↔ a ∈ l.map Prod.fst := by
  intro l
  induction l with
  | nil => simp [List.lookup]
  | cons p t ih =>
      obtain ⟨k, v⟩ := p
      by_cases hak : a = k
      · subst hak
        simp [List.lookup]
      · have hbeq : (a == k) = false := beq_eq_false_iff_ne.mpr hak
        simp [List.lookup, hbeq, ih, hak]

theorem mem_of_lookup : ∀ (l : List (ℕ × List Char)) (a : ℕ) (b : List Char),
    l.lookup a = some b → (a, b) ∈ l := by
  intro l
  induction l with
  | nil => intro a b h; exact absurd h (by simp [List.lookup])
  | cons p t ih =>
      intro a b h
      obtain ⟨k, v⟩ := p
      by_cases hak : a = k
      · subst hak
        rw [List.lookup, beq_self_eq_true] at h
        simp only [Option.some.injEq] at h
        subst h
        exact List.mem_cons_self _ _
      · have hbeq : (a == k) = false := beq_eq_false_iff_ne.mpr hak
        rw [List.lookup, hbeq] at h
        exact List.mem_cons_of_mem _ (ih a b h)

theorem lookup_of_mem_nodup : ∀ (l : List (ℕ × List Char)) (a : ℕ) (b : List Char),
    (l.map Prod.fst).Nodup → (a, b) ∈ l → l.lookup a = some b := by
  intro l
  induction l with
  | nil => intro a b _ h; exact absurd h (by simp)
  | cons p t ih =>
      intro a b hnd hmem
      obtain ⟨k, v⟩ := p
      simp only [List.map_cons, List.nodup_cons] at hnd
      rcases List.mem_cons.mp hmem with h | h
      · rw [Prod.mk.injEq] at h
        obtain ⟨ha, hb⟩ := h
        subst ha
        subst hb
        rw [List.lookup, beq_self_eq_true]
      · have hak : a ≠ k := by
          intro heq
          subst heq
          exact hnd.1 (List.mem_map.mpr ⟨(a, b), h, rfl⟩)
        have hbeq : (a == k) = false := beq_eq_false_iff_ne.mpr hak
        rw [List.lookup, hbeq]
        exact ih a b hnd.2 h

theorem buildIndexMap_success :
    ∀ (paths : List (List Char)) (acc m : List (ℕ × List Char)),
      (∀ s ∈ paths, (extractBackdropIndex s).isSome = true) →
      buildIndexMap acc paths = some m →
      m = acc ++ paths.map entryOf := by
  intro paths
  induction paths with
  | nil =>
      intro acc m _ h
      simp only [buildIndexMap, Option.some.injEq] at h
      simp [← h]
  | cons s rest ih =>
      intro acc m hvalid h
      obtain ⟨i, hi⟩ := Option.isSome_iff_exists.mp (hvalid s (List.mem_cons_self s rest))
      simp only [buildIndexMap, hi] at h
      by_cases hl : ((acc.lookup i).isSome : Prop)
      · rw [if_pos hl] at h
        exact absurd h (by simp)
      · rw [if_neg hl] at h
        have := ih (acc ++ [(i, s)]) m
          (fun t ht => hvalid t (List.mem_cons_of_mem _ ht)) h
        rw [this, List.append_assoc]
        simp [entryOf, hi]

theorem buildIndexMap_nodup :
    ∀ (paths : List (List Char)) (acc m : List (ℕ × List Char)),
      buildIndexMap acc paths = some m →
      (acc.map Prod.fst).Nodup → (m.map Prod.fst).Nodup := by
  intro paths
  induction paths with
  | nil =>
      intro acc m h hnd
      simp only [buildIndexMap, Option.some.injEq] at h
      rw [← h]
      exact hnd
  | cons s rest ih =>
      intro acc m h hnd
      cases hi : extractBackdropIndex s with
      | none =>
          simp only [buildIndexMap, hi] at h
          exact Option.noConfusion h
      | some i =>
          simp only [buildIndexMap, hi] at h
          by_cases hl : ((acc.lookup i).isSome : Prop)
          · rw [if_pos hl] at h
            exact absurd h (by simp)
          · rw [if_neg hl] at h
            refine ih (acc ++ [(i, s)]) m h ?_
            rw [List.map_append]
            simp only [List.map_cons, List.map_nil]
            rw [List.nodup_append]
            refine ⟨hnd, List.nodup_singleton i, ?_⟩
            intro a ha hb
            simp only [List.mem_singleton] at hb
            subst hb
            exact hl ((lookup_isSome_iff a acc).mpr ha)

theorem buildIndexMap_isSome_of_nodup :
    ∀ (paths : List (List Char)) (acc : List (ℕ × List Char)),
      (∀ s ∈ paths, (extractBackdropIndex s).isSome = true) →
      (acc.map Prod.fst ++ paths.filterMap extractBackdropIndex).Nodup →
      (buildIndexMap acc paths).isSome = true := by
  intro paths
  induction paths with
  | nil => intro acc _ _; simp [buildIndexMap]
  | cons s rest ih =>
      intro acc hvalid hnd
      obtain ⟨i, hi⟩ := Option.isSome_iff_exists.mp (hvalid s (List.mem_cons_self s rest))
      simp only [buildIndexMap, hi]
      rw [List.filterMap_cons, hi] at hnd
      have hnd2 : ((acc ++ [(i, s)]).map Prod.fst ++
          rest.filterMap extractBackdropIndex).Nodup := by
        rw [List.map_append]
        simp only [List.map_cons, List.map_nil]
        rw [List.append_assoc]
        simpa using hnd
      have hnotmem : i ∉ acc.map Prod.fst := by
        intro hmem
        rcases List.nodup_append.mp hnd with ⟨_, _, hdisj⟩
        exact hdisj hmem (List.mem_cons_self _ _)
      have hl : ¬ ((acc.lookup i).isSome : Prop) := by
        intro hsome
        exact hnotmem ((lookup_isSome_iff i acc).mp hsome)
      rw [if_neg hl]
      exact ih (acc ++ [(i, s)]) (fun t ht => hvalid t (List.mem_cons_of_mem _ ht)) hnd2

theorem filterMap_extract_of_valid :
    ∀ paths : List (List Char),
      (∀ s ∈ paths, (extractBackdropIndex s).isSome = true) →
      paths.filterMap extractBackdropIndex =
        paths.map (fun s => (extractBackdropIndex s).getD 0) := by
  intro paths
  induction paths with
  | nil => intro _; rfl
  | cons s rest ih =>
      intro hvalid
      obtain ⟨i, hi⟩ := Option.isSome_iff_exists.mp (hvalid s (List.mem_cons_self s rest))
      rw [List.filterMap_cons, hi, List.map_cons, hi]
      simp only [Option.getD_some]
      rw [ih (fun t ht => hvalid t (List.mem_cons_of_mem _ ht))]

theorem mem_of_mem_restoreUploads :
    ∀ (t : List RestoreEv) (i : ℕ) (s : List Char),
      (i, s) ∈ restoreUploads t → RestoreEv.upload i s ∈ t := by
  intro t
  induction t with
  | nil => intro i s h; exact absurd h (by simp [restoreUploads])
  | cons e rest ih =>
      intro i s h
      cases e with
      | upload j u =>
          rw [restoreUploads] at h
          rcases List.mem_cons.mp h with h1 | h1
          · rw [Prod.mk.injEq] at h1
            obtain ⟨hj, hu⟩ := h1
            subst hj
            subst hu
            exact List.mem_cons_self _ _
          · exact List.mem_cons_of_mem _ (ih i s h1)
      | error => exact List.mem_cons_of_mem _ (ih i s h)
      | success => exact List.mem_cons_of_mem _ (ih i s h)

theorem restoreLoop_uploads (readOk : List Char → Bool) (uploadOk : ℕ → Bool)
    (m : List (ℕ × List Char)) :
    ∀ os : List ℕ,
      (∀ i ∈ os, (m.lookup i).isSome = true ∧ readOk ((m.lookup i).getD []) = true) →
      restoreUploads (restoreLoop readOk uploadOk false m os).2 =
        os.map (fun i => (i, (m.lookup i).getD [])) := by
  intro os
  induction os with
  | nil => intro _; rfl
  | cons i rest ih =>
      intro hok
      obtain ⟨hsome, hrd⟩ := hok i (List.mem_cons_self i rest)
      obtain ⟨s, hs⟩ := Option.isSome_iff_exists.mp hsome
      have hgetd : (m.lookup i).getD [] = s := by rw [hs]; rfl
      rw [hgetd] at hrd
      have hrest := ih (fun j hj => hok j (List.mem_cons_of_mem _ hj))
      simp only [restoreLoop, hs, List.map_cons, hgetd]
      unfold restoreBackupPayload
      rw [if_neg (by rw [hrd]; decide)]
      rw [if_neg (by decide)]
      by_cases hu : (uploadOk i : Prop)
      · rw [if_pos hu]
        simp [restoreUploads, hrest]
      · rw [if_neg hu]
        simp [restoreUploads, hrest]

/-- Claim C3: for a non empty backdrop backup group whose filenames all
decode to indices and whose files are readable, in a non dry run: if the
decoded indices contain a duplicate or do not form the contiguous set
0..k-1, the restore performs zero uploads and records exactly one error
(the whole trace is one error event); if they do form the contiguous set,
every file is uploaded at its encoded index, in ascending index order. -/
theorem restore_backdrop_group_spec (readOk : List Char → Bool) (uploadOk : ℕ → Bool)
    (paths : List (List Char))
    (hne : paths ≠ [])
    (hvalid : ∀ s ∈ paths, (extractBackdropIndex s).isSome = true)
    (hread : ∀ s ∈ paths, readOk s = true) :
    (¬ ((paths.filterMap extractBackdropIndex).Nodup ∧
        List.Perm (paths.filterMap extractBackdropIndex) (List.range paths.length)) →
      (restoreBackdropGroup readOk uploadOk false paths).2 = [RestoreEv.error]) ∧
    (((paths.filterMap extractBackdropIndex).Nodup ∧
        List.Perm (paths.filterMap extractBackdropIndex) (List.range paths.length)) →
      (restoreUploads (restoreBackdropGroup readOk uploadOk false paths).2).map Prod.fst =
        List.range paths.length ∧
      (∀ s ∈ paths, ∀ i, extractBackdropIndex s = some i →
        RestoreEv.upload i s ∈ (restoreBackdropGroup readOk uploadOk false paths).2)) := by
  constructor
  · -- duplicate or gap: the trace is exactly one recorded error
    intro hnp
    cases hb : buildIndexMap [] paths with
    | none =>
        unfold restoreBackdropGroup
        rw [if_neg hne, hb]
    | some m =>
        have hmeq : m = paths.map entryOf := by
          have := buildIndexMap_success paths [] m hvalid hb
          simpa using this
        have hkeys : m.map Prod.fst = paths.filterMap extractBackdropIndex := by
          rw [hmeq, List.map_map, filterMap_extract_of_valid paths hvalid]
          rfl
        have hnodup : (paths.filterMap extractBackdropIndex).Nodup := by
          rw [← hkeys]
          exact buildIndexMap_nodup paths [] m hb (by simp)
        have hnperm : ¬ List.Perm (paths.filterMap extractBackdropIndex)
            (List.range paths.length) := fun hp => hnp ⟨hnodup, hp⟩
        have hchar : restoreBackdropGroup readOk uploadOk false paths =
            (if orderedKeys m = [] then (0, [RestoreEv.error])
             else if (orderedKeys m).head? ≠ some 0 then (0, [RestoreEv.error])
             else if orderedKeys m ≠ List.range ((orderedKeys m).getLastD 0 + 1) then
               (0, [RestoreEv.error])
             else restoreLoop readOk uploadOk false m (orderedKeys m)) := by
          unfold restoreBackdropGroup
          rw [if_neg hne, hb]
        by_cases h1 : orderedKeys m = []
        · rw [hchar, if_pos h1]
        · by_cases h2 : (orderedKeys m).head? ≠ some 0
          · rw [hchar, if_neg h1, if_pos h2]
          · by_cases h3 : orderedKeys m ≠ List.range ((orderedKeys m).getLastD 0 + 1)
            · rw [hchar, if_neg h1, if_neg h2, if_pos h3]
            · exfalso
              push_neg at h3
              have hperm1 : List.Perm (orderedKeys m) (paths.filterMap extractBackdropIndex) := by
                rw [← hkeys]
                exact List.perm_insertionSort _ _
              have hlen : (orderedKeys m).length = paths.length := by
                rw [hperm1.length_eq, ← hkeys, hmeq]
                simp
              have hlen2 : (orderedKeys m).length = (orderedKeys m).getLastD 0 + 1 := by
                conv_lhs => rw [h3]
                rw [List.length_range]
              have hx : (orderedKeys m).getLastD 0 + 1 = paths.length := by omega
              have hLeq : orderedKeys m = List.range paths.length := by
                rw [h3, hx]
              exact hnperm (by rw [← hLeq]; exact hperm1.symm)
  · -- contiguous indices: one upload per file at its encoded index
    intro hok
    obtain ⟨hnodup, hperm⟩ := hok
    obtain ⟨m, hb⟩ := Option.isSome_iff_exists.mp
      (buildIndexMap_isSome_of_nodup paths [] hvalid (by simpa using hnodup))
    have hmeq : m = paths.map entryOf := by
      have := buildIndexMap_success paths [] m hvalid hb
      simpa using this
    have hkeys : m.map Prod.fst = paths.filterMap extractBackdropIndex := by
      rw [hmeq, List.map_map, filterMap_extract_of_valid paths hvalid]
      rfl
    have hkeysnodup : (m.map Prod.fst).Nodup := by
      rw [hkeys]; exact hnodup
    have hord : orderedKeys m = List.range paths.length := by
      refine List.eq_of_perm_of_sorted ?_ (List.sorted_insertionSort _ _)
        (List.pairwise_le_range paths.length)
      exact (List.perm_insertionSort _ _).trans (hkeys ▸ hperm)
    have hpos : 0 < paths.length := List.length_pos.mpr hne
    obtain ⟨k, hk⟩ : ∃ k, paths.length = k + 1 := ⟨paths.length - 1, by omega⟩
    have h1 : ¬ orderedKeys m = [] := by
      rw [hord, hk]
      simp [List.range_eq_nil]
    have h2 : ¬ (orderedKeys m).head? ≠ some 0 := by
      rw [hord, hk, List.range_succ_eq_map]
      simp
    have hlast : (orderedKeys m).getLastD 0 = k := by
      rw [hord, hk, List.range_succ k]
      exact List.getLastD_concat _ _ _
    have h3 : ¬ orderedKeys m ≠ List.range ((orderedKeys m).getLastD 0 + 1) := by
      rw [hlast, hord, hk]
      simp
    have hchar0 : restoreBackdropGroup readOk uploadOk false paths =
        (if orderedKeys m = [] then (0, [RestoreEv.error])
         else if (orderedKeys m).head? ≠ some 0 then (0, [RestoreEv.error])
         else if orderedKeys m ≠ List.range ((orderedKeys m).getLastD 0 + 1) then
           (0, [RestoreEv.error])
         else restoreLoop readOk uploadOk false m (orderedKeys m)) := by
      unfold restoreBackdropGroup
      rw [if_neg hne, hb]
    have hchar : restoreBackdropGroup readOk uploadOk false paths =
        restoreLoop readOk uploadOk false m (orderedKeys m) := by
      rw [hchar0, if_neg h1, if_neg h2, if_neg h3]
    have hloopok : ∀ i ∈ orderedKeys m, (m.lookup i).isSome = true ∧
        readOk ((m.lookup i).getD []) = true := by
      intro i hi
      rw [hord] at hi
      have himem : i ∈ m.map Prod.fst := by
        rw [hkeys]
        exact (hperm.mem_iff).mpr hi
      have hsome := (lookup_isSome_iff i m).mpr himem
      obtain ⟨s, hs⟩ := Option.isSome_iff_exists.mp hsome
      have hsm : (i, s) ∈ m := mem_of_lookup m i s hs
      have hsp : s ∈ paths := by
        rw [hmeq] at hsm
        obtain ⟨t, ht, hts⟩ := List.mem_map.mp hsm
        have : t = s := congrArg Prod.snd hts
        rw [← this]
        exact ht
      refine ⟨hsome, ?_⟩
      rw [hs]
      exact hread s hsp
    have hloop := restoreLoop_uploads readOk uploadOk m (orderedKeys m) hloopok
    rw [hchar]
    constructor
    · rw [hloop, List.map_map, hord]
      exact List.map_id _
    · intro s hs i hi
      have hsm : (i, s) ∈ m := by
        rw [hmeq]
        refine List.mem_map.mpr ⟨s, hs, ?_⟩
        simp [entryOf, hi]
      have hlk : m.lookup i = some s := lookup_of_mem_nodup m i s hkeysnodup hsm
      have hiord : i ∈ orderedKeys m := by
        rw [hord]
        refine (hperm.mem_iff).mp ?_
        rw [← hkeys]
        exact List.mem_map.mpr ⟨(i, s), hsm, rfl⟩
      refine mem_of_mem_restoreUploads _ i s ?_
      rw [hloop]
      refine List.mem_map.mpr ⟨i, hiord, ?_⟩
      rw [hlk]
      rfl

/-- Backup stems backdrop and backdrop1, the contiguous example of the spec. -/
def stems01 : List (List Char) := [("backdrop").data, ("backdrop1").data]

/-- Filesystem oracle for the witness: every read succeeds. -/
def readAlwaysOk : List Char → Bool := fun _ => true

/-- Client oracle for the witness: every upload succeeds. -/
def uploadAlwaysOk : ℕ → Bool := fun _ => true

/-- Witness for claim C3 on the concrete group backdrop.jpg, backdrop1.jpg. -/
theorem restore_backdrop_group_spec_witness :
    (stems01 ≠ [] ∧ (∀ s ∈ stems01, (extractBackdropIndex s).isSome = true) ∧
     (∀ s ∈ stems01, readAlwaysOk s = true)) ∧
    ((¬ ((stems01.filterMap extractBackdropIndex).Nodup ∧
        List.Perm (stems01.filterMap extractBackdropIndex) (List.range stems01.length)) →
      (restoreBackdropGroup readAlwaysOk uploadAlwaysOk false stems01).2 = [RestoreEv.error]) ∧
    (((stems01.filterMap extractBackdropIndex).Nodup ∧
        List.Perm (stems01.filterMap extractBackdropIndex) (List.range stems01.length)) →
      (restoreUploads
        (restoreBackdropGroup readAlwaysOk uploadAlwaysOk false stems01).2).map Prod.fst =
        List.range stems01.length ∧
      (∀ s ∈ stems01, ∀ i, extractBackdropIndex s = some i →
        RestoreEv.upload i s ∈
          (restoreBackdropGroup readAlwaysOk uploadAlwaysOk false stems01).2))) :=
  ⟨⟨by decide, by decide, by decide⟩,
    restore_backdrop_group_spec readAlwaysOk uploadAlwaysOk stems01
      (by decide) (by decide) (by decide)⟩
